import Mathlib

/-!
Shallow embedding of the scoring core of the Gayatri-mantra typing trainer
(`src/components/MantraTrainer.tsx`) together with the leaderboard ordering
(`Leaderboard` component).  Strings are modelled as `List Char` and every
JavaScript string operation used by the source is translated operation by
operation.  Numeric comparisons that the source performs on IEEE doubles
(`len >= tlen * 0.8`, `(matches / tlen) * 100 >= 85`,
`Math.floor((correct / words.length) * 100)`) are rendered as exact integer
comparisons; the two threshold tests agree with double arithmetic for all
relevant sizes, and the floored percentage agrees with double arithmetic for
every word count below 50 (the fixed targets have 11 and 14 words).
-/

/-- JS regex word character (`\w` without the unicode flag): `[A-Za-z0-9_]`.
Devanagari characters are not word characters, so a word boundary exists
between a Latin letter and a Devanagari letter. -/
def isWordChar (c : Char) : Bool :=
  ('a' ≤ c && c ≤ 'z') || ('A' ≤ c && c ≤ 'Z') || ('0' ≤ c && c ≤ '9') || c == '_'

/-- ASCII whitespace: the fragment of JS `\s` (and of `String.prototype.trim`)
that can occur in the strings this program manipulates. -/
def isWs (c : Char) : Bool :=
  c == ' ' || c == '\t' || c == '\n' || c == '\r' || c == '\x0b' || c == '\x0c'

/-- `String.prototype.split(' ')`: split on single space characters keeping
empty segments; the empty string yields one empty segment (`[""]`). -/
def splitOnSpace : List Char → List (List Char)
  | [] => [[]]
  | c :: cs =>
    if c = ' ' then [] :: splitOnSpace cs
    else
      match splitOnSpace cs with
      | [] => [[c]]
      | w :: ws => (c :: w) :: ws

/-- Leading-whitespace strip, the first half of `String.prototype.trim`. -/
def trimLeft (l : List Char) : List Char := l.dropWhile isWs

/-- `String.prototype.trim`: drop leading and trailing whitespace. -/
def trim (l : List Char) : List Char :=
  ((trimLeft l).reverse.dropWhile isWs).reverse

/-- `String.prototype.toLowerCase`; on the alphabet this program uses
(ASCII plus caseless Devanagari) only `A`–`Z` are affected. -/
def lowerStr (l : List Char) : List Char := l.map Char.toLower

/-- `s.replace(/[।॥]/g, '')`: remove the two danda punctuation marks. -/
def stripDanda (l : List Char) : List Char :=
  l.filter (fun c => !(c == '।' || c == '॥'))

/-- `s.replace(/\s/g, '')`: remove all whitespace characters. -/
def removeWs (l : List Char) : List Char := l.filter (fun c => !isWs c)

/-- The trailing `\b` of the regex: after a matched token the next character
(if any) must not be a word character. -/
def boundaryAfter : List Char → Bool
  | [] => true
  | c :: _ => !isWordChar c

/-- The first alternative of the regex alternation that matches at the head
of `s`, including its trailing word-boundary test (the regex engine tries the
alternatives left to right at each position). -/
def findTok (toks : List (List Char)) (s : List Char) : Option (List Char) :=
  toks.find? (fun t => !t.isEmpty && t.isPrefixOf s && boundaryAfter (s.drop t.length))

/-- Global replacement `/\b(tok₁|tok₂|…)\b/g → repl` as the regex engine
performs it: a left-to-right scan; `prevW` records whether the previous
character of the original string was a word character (the leading `\b`
test), and scanning resumes immediately after each replaced token. -/
def wbReplace (toks : List (List Char)) (repl : List Char) : Bool → List Char → List Char
  | _, [] => []
  | prevW, c :: cs =>
    if prevW then c :: wbReplace toks repl (isWordChar c) cs
    else
      match hf : findTok toks (c :: cs) with
      | some t => repl ++ wbReplace toks repl true ((c :: cs).drop t.length)
      | none => c :: wbReplace toks repl (isWordChar c) cs
termination_by _ l => l.length
decreasing_by
  · simp [Nat.lt_succ_iff]
  · simp only [findTok] at hf
    have h1 := List.find?_some hf
    have h2 : 0 < t.length := by
      rcases t with _ | ⟨a, u⟩
      · simp at h1
      · simp
    simp only [List.length_drop, List.length_cons]
    omega
  · simp [Nat.lt_succ_iff]

/-- The two language variants of the trainer. -/
inductive Lang : Type
  | hindi
  | hinglish
deriving DecidableEq, Repr

/-- The fixed mantra targets (the `MANTRAS` constant of the source). -/
def MANTRAS : Lang → List Char
  | .hindi =>
    ("ॐ भूर्भुवः स्वः तत्सवितुर्वरेण्यम् भर्गो देवस्य धीमहि धियो यो नः प्रचोदयात्").data
  | .hinglish =>
    ("Om bhur bhuvah swah tat savitur varenyam bhargo devasya dheemahi dhiyo yo nah prachodayat").data

/-- The alternatives of `/\b(om|aum|OM|AUM)\b/g`, in regex order. -/
def hindiToks : List (List Char) :=
  [['o', 'm'], ['a', 'u', 'm'], ['O', 'M'], ['A', 'U', 'M']]

/-- The alternatives of `/\b(aum|AUM)\b/g`, in regex order. -/
def hinglishToks : List (List Char) :=
  [['a', 'u', 'm'], ['A', 'U', 'M']]

/-- The `autoCorrect` function of the source.  The `target` parameter is
accepted but unused, exactly as in the source. -/
def autoCorrect (input : List Char) (_target : List Char) (language : Lang) : List Char :=
  match language with
  | .hindi => wbReplace hindiToks (("ॐ").data) false input
  | .hinglish => wbReplace hinglishToks (['O', 'm']) false input

/-- The normalization applied to both sides before comparison:
`s.replace(/[।॥]/g, '').toLowerCase().trim()`. -/
def normalizeStr (s : List Char) : List Char := trim (lowerStr (stripDanda s))

/-- The character-comparison loop of `checkAccuracy`: the number of positions
in the overlapping prefix where the two strings hold equal characters. -/
def matchesCount : List Char → List Char → Nat
  | a :: as, b :: bs => (if a = b then 1 else 0) + matchesCount as bs
  | _, _ => 0

/-- The word-comparison loop of `checkAccuracy`: the number of indices in the
overlapping range where both word lists hold equal words. -/
def countAligned : List (List Char) → List (List Char) → Nat
  | w :: ws, v :: vs => (if w = v then 1 else 0) + countAligned ws vs
  | _, _ => 0

/-- The `checkAccuracy` function of the source.  The source nests the
tolerant test (`if (inputChars.length >= targetChars.length * 0.8) { …
if (similarity >= 85) return 100 }`) and falls through to the word-partial
computation when either part fails; both branch conditions are collected in
one conjunction here.  `similarity` is `(matches / targetChars.length) * 100`
on doubles, which is `NaN` (hence not `≥ 85`) when the target has no
characters — hence the `0 < targetChars.length` conjunct. -/
def checkAccuracy (input target : List Char) (language : Lang) : Nat :=
  let corrected := autoCorrect input target language
  let targetNormalized := normalizeStr target
  let inputNormalized := normalizeStr corrected
  if inputNormalized = targetNormalized then 100
  else
    let targetChars := removeWs targetNormalized
    let inputChars := removeWs inputNormalized
    if inputChars.length * 5 ≥ targetChars.length * 4 ∧
        (0 < targetChars.length ∧
          matchesCount targetChars inputChars * 100 ≥ 85 * targetChars.length) then
      100
    else
      let words := splitOnSpace targetNormalized
      let inputWords := splitOnSpace inputNormalized
      countAligned words inputWords * 100 / words.length

/-- The `getTypingSuggestion` function of the source. -/
def getTypingSuggestion (input target : List Char) : List Char :=
  let targetWords := splitOnSpace target
  let inputWords := splitOnSpace (trim input)
  if trim input = [] then targetWords.getD 0 []
  else if inputWords.length ≤ targetWords.length then
    let currentWordIndex := inputWords.length - 1
    let currentWord := inputWords.getD currentWordIndex []
    let targetWord := targetWords.getD currentWordIndex []
    if currentWord.isPrefixOf targetWord && !currentWord.isEmpty then targetWord
    else []
  else []

/-- The typing surface state that suggestion acceptance manipulates. -/
structure TypingState where
  currentInput : List Char
  suggestion : List Char
deriving DecidableEq, Repr

/-- `handleSuggestionClick` of the source: replace the last space-delimited
token of the input with the suggestion, append a trailing space, and
recompute the next suggestion from `words.join(' ') + ' '` (note that in the
empty-input branch the source recomputes from the unmodified `words`, which
is `[""]`). -/
def acceptSuggestion (target : List Char) (st : TypingState) : TypingState :=
  if st.suggestion = [] then st
  else
    let words := splitOnSpace (trim st.currentInput)
    if trim st.currentInput = [] then
      { currentInput := st.suggestion ++ [' '],
        suggestion := getTypingSuggestion (List.intercalate [' '] words ++ [' ']) target }
    else
      let words2 := words.set (words.length - 1) st.suggestion
      { currentInput := List.intercalate [' '] words2 ++ [' '],
        suggestion := getTypingSuggestion (List.intercalate [' '] words2 ++ [' ']) target }

/-- The state of the typing surface when a mantra session starts: empty
input, and the suggestion initialized by the mount effect
(`getTypingSuggestion('', target)`). -/
def initialState (target : List Char) : TypingState :=
  ⟨[], getTypingSuggestion [] target⟩

/-- One achievement level of the `ACHIEVEMENTS` constant. -/
structure Achievement where
  points : Nat
  title : String
deriving DecidableEq, Repr

/-- The `ACHIEVEMENTS` constant of the source (icons omitted: render-only). -/
def ACHIEVEMENTS : List Achievement :=
  [⟨100, "Sanskrit Learner"⟩, ⟨500, "Bronze Mantra Medal"⟩, ⟨1000, "Divine Devotee Certificate"⟩]

/-- The per-user progress record (`UserProgress` interface). -/
structure UserProgress where
  totalPoints : Nat
  achievements : List String
  completedSessions : Nat
deriving DecidableEq, Repr

/-- One step of the achievement pass in `handleInputChange`: push the title
when its threshold is reached and it is not already present. -/
def awardStep (totalPoints : Nat) (acc : List String) (a : Achievement) : List String :=
  if totalPoints ≥ a.points ∧ a.title ∉ acc then acc ++ [a.title] else acc

/-- The achievement pass of `handleInputChange`: the `ACHIEVEMENTS.forEach`
loop pushing qualifying, not-yet-present titles onto the list. -/
def checkAwards (totalPoints : Nat) (achs : List String) : List String :=
  ACHIEVEMENTS.foldl (awardStep totalPoints) achs

/-- The session state driven by `handleInputChange`. -/
structure SessionState where
  repetitionCount : Nat
  progress : UserProgress
deriving DecidableEq, Repr

/-- The state transition of `handleInputChange` once the input has been
scored.  On accuracy 100 the repetition counter advances; on the third
repetition 10 points and one session are awarded, achievements re-checked
against the new total, and the counter reset (the delayed `setTimeout`
reset, modelled at its steady state). -/
def applyScore (st : SessionState) (accuracy : Nat) : SessionState :=
  if accuracy = 100 then
    let newCount := st.repetitionCount + 1
    if newCount = 3 then
      let newPoints := st.progress.totalPoints + 10
      { repetitionCount := 0,
        progress :=
          { totalPoints := newPoints,
            completedSessions := st.progress.completedSessions + 1,
            achievements := checkAwards newPoints st.progress.achievements } }
    else
      { st with repetitionCount := newCount }
  else st

/-- One leaderboard record (`LeaderboardEntry`; achievement and
last-active fields omitted: render-only). -/
structure LBEntry where
  name : List Char
  points : Nat
  sessions : Nat
deriving DecidableEq, Repr

/-- The order induced by the comparator of `updateLeaderboard`
(`(a, b) => b.points - a.points`, tie-break `b.sessions - a.sessions`),
read as "`a` may appear no later than `b`". -/
def lbLe (a b : LBEntry) : Prop :=
  b.points < a.points ∨ (a.points = b.points ∧ b.sessions ≤ a.sessions)

instance : DecidableRel lbLe := fun a b => by
  unfold lbLe
  infer_instance

instance : IsTotal LBEntry lbLe :=
  ⟨fun a b => by unfold lbLe; omega⟩

instance : IsTrans LBEntry lbLe :=
  ⟨fun a b c hab hbc => by unfold lbLe at *; omega⟩

/-- `updateLeaderboard`'s sort of the fetched records: JS `Array.sort` with
the comparator above is a stable comparator sort, modelled by insertion
sort. -/
def sortLeaderboard (l : List LBEntry) : List LBEntry := List.insertionSort lbLe l

/-- The whole-word substitution described by the spec, as a characterization
by maximal word-character runs: a run equal to one of the tokens is replaced,
every other character is kept; `afterW` tells whether the character before
the current position is a word character (then the leading boundary is
absent and the first run cannot match). -/
def wholeWordReplace (toks : List (List Char)) (repl : List Char) (afterW : Bool) : List Char → List Char
  | [] => []
  | c :: cs =>
    if isWordChar c then
      (if !afterW && toks.contains (c :: cs.takeWhile isWordChar) then repl
       else c :: cs.takeWhile isWordChar) ++
        wholeWordReplace toks repl true (cs.dropWhile isWordChar)
    else c :: wholeWordReplace toks repl false cs
termination_by l => l.length
decreasing_by
  · have := (List.dropWhile_suffix (l := cs) isWordChar).sublist.length_le
    simp only [List.length_cons]
    omega
  · simp [Nat.lt_succ_iff]

/-- The tolerant-match condition as the claims state it: the
whitespace-stripped input is at least 80% as long as the whitespace-stripped
target, and the position-wise character agreement over the overlapping
prefix is at least 85% of the target character count. -/
def tolerantMatch (input target : List Char) (language : Lang) : Prop :=
  (removeWs (normalizeStr (autoCorrect input target language))).length * 5 ≥
      (removeWs (normalizeStr target)).length * 4 ∧
    matchesCount (removeWs (normalizeStr target))
        (removeWs (normalizeStr (autoCorrect input target language))) * 100 ≥
      85 * (removeWs (normalizeStr target)).length

/-- The full condition of the source's tolerant branch (the claim's tolerant
condition plus the non-empty-target guard implicit in the `NaN` comparison). -/
def tolerantBranch (input target : List Char) (language : Lang) : Prop :=
  tolerantMatch input target language ∧ 0 < (removeWs (normalizeStr target)).length

/-- The token lists fed to the regex replacement are non-empty words made of
word characters only (true of both concrete alternations). -/
def goodToks (toks : List (List Char)) : Prop :=
  ∀ t ∈ toks, t ≠ [] ∧ ∀ c ∈ t, isWordChar c = true

theorem splitOnSpace_ne_nil (l : List Char) : splitOnSpace l ≠ [] := by
  cases l with
  | nil => simp [splitOnSpace]
  | cons c cs =>
    simp only [splitOnSpace]
    split
    · simp
    · split <;> simp

theorem length_splitOnSpace_pos (l : List Char) : 0 < (splitOnSpace l).length :=
  List.length_pos.mpr (splitOnSpace_ne_nil l)

theorem join_map_removeWs (l : List Char) :
    List.flatten ((splitOnSpace l).map removeWs) = removeWs l := by
  induction l with
  | nil => simp [splitOnSpace, removeWs]
  | cons c cs ih =>
    by_cases hc : c = ' '
    · subst hc
      have hsp : splitOnSpace (' ' :: cs) = [] :: splitOnSpace cs := by
        simp [splitOnSpace]
      rw [hsp]
      simp only [List.map_cons, List.flatten_cons]
      rw [ih]
      simp [removeWs, isWs]
    · rcases hw : splitOnSpace cs with _ | ⟨w, ws⟩
      · exact absurd hw (splitOnSpace_ne_nil cs)
      · have hsp : splitOnSpace (c :: cs) = (c :: w) :: ws := by
          simp [splitOnSpace, hc, hw]
        rw [hsp]
        simp only [List.map_cons, List.flatten_cons]
        rw [hw] at ih
        simp only [List.map_cons, List.flatten_cons] at ih
        by_cases hws : isWs c
        · have hkeep : removeWs (c :: w) = removeWs w := by simp [removeWs, hws]
          have hkeep2 : removeWs (c :: cs) = removeWs cs := by simp [removeWs, hws]
          rw [hkeep, hkeep2, ← ih]
        · have hkeep : removeWs (c :: w) = c :: removeWs w := by simp [removeWs, hws]
          have hkeep2 : removeWs (c :: cs) = c :: removeWs cs := by simp [removeWs, hws]
          rw [hkeep, hkeep2, ← ih]
          simp

theorem dropWhile_head_false {α : Type} {p : α → Bool} :
    ∀ (l : List α) (c : α) (t : List α), l.dropWhile p = c :: t → p c = false := by
  intro l
  induction l with
  | nil => intro c t h; simp at h
  | cons a as ih =>
    intro c t h
    rw [List.dropWhile_cons] at h
    by_cases hp : p a
    · rw [if_pos hp] at h; exact ih c t h
    · rw [if_neg hp] at h
      cases h
      simpa using hp

theorem dropWhile_append_last {α : Type} {p : α → Bool} {c : α} (hc : p c = false) :
    ∀ xs : List α, (xs ++ [c]).dropWhile p = xs.dropWhile p ++ [c] := by
  intro xs
  induction xs with
  | nil => simp [List.dropWhile, hc]
  | cons a as ih =>
    rw [List.cons_append, List.dropWhile_cons, List.dropWhile_cons]
    by_cases hp : p a
    · rw [if_pos hp, if_pos hp, ih]
    · rw [if_neg hp, if_neg hp, List.cons_append]

theorem trim_head_not_ws (l : List Char) (h : trim l ≠ []) :
    ∃ c t, trim l = c :: t ∧ isWs c = false := by
  rcases hm : trimLeft l with _ | ⟨c, t⟩
  · exact absurd (by simp [trim, hm]) h
  · have hc : isWs c = false := dropWhile_head_false l c t hm
    refine ⟨c, ((t.reverse.dropWhile isWs).reverse), ?_, hc⟩
    simp only [trim, hm, List.reverse_cons]
    rw [dropWhile_append_last hc, List.reverse_append]
    simp

theorem removeWs_dropWhile (l : List Char) :
    removeWs (l.dropWhile isWs) = removeWs l := by
  induction l with
  | nil => simp
  | cons a as ih =>
    rw [List.dropWhile_cons]
    by_cases hp : isWs a
    · rw [if_pos hp, ih]
      simp [removeWs, hp]
    · rw [if_neg hp]

theorem removeWs_reverse (l : List Char) :
    removeWs l.reverse = (removeWs l).reverse :=
  List.filter_reverse _ l

theorem removeWs_trim (l : List Char) : removeWs (trim l) = removeWs l := by
  simp only [trim]
  rw [removeWs_reverse, removeWs_dropWhile, removeWs_reverse, List.reverse_reverse,
    trimLeft, removeWs_dropWhile]

theorem removeWs_trim_ne_nil (l : List Char) (h : trim l ≠ []) :
    removeWs (trim l) ≠ [] := by
  obtain ⟨c, t, heq, hc⟩ := trim_head_not_ws l h
  rw [heq]
  simp [removeWs, hc]

theorem splitOnSpace_cons_of_ne {c : Char} (cs : List Char) (h : c ≠ ' ') :
    ∃ w ws, splitOnSpace (c :: cs) = (c :: w) :: ws ∧ splitOnSpace cs = w :: ws := by
  rcases hw : splitOnSpace cs with _ | ⟨w, ws⟩
  · exact absurd hw (splitOnSpace_ne_nil cs)
  · exact ⟨w, ws, by simp [splitOnSpace, h, hw], rfl⟩

theorem countAligned_le : ∀ ws vs : List (List Char), countAligned ws vs ≤ ws.length := by
  intro ws
  induction ws with
  | nil => intro vs; cases vs <;> simp [countAligned]
  | cons w ws ih =>
    intro vs
    cases vs with
    | nil => simp [countAligned]
    | cons v vs =>
      simp only [countAligned, List.length_cons]
      have := ih vs
      split <;> omega

theorem countAligned_full :
    ∀ ws vs : List (List Char), countAligned ws vs = ws.length → ∃ rest, vs = ws ++ rest := by
  intro ws
  induction ws with
  | nil => intro vs _; exact ⟨vs, rfl⟩
  | cons w ws ih =>
    intro vs h
    cases vs with
    | nil => simp [countAligned] at h
    | cons v vs =>
      simp only [countAligned, List.length_cons] at h
      have hle := countAligned_le ws vs
      by_cases hv : w = v
      · rw [if_pos hv] at h
        obtain ⟨rest, hrest⟩ := ih vs (by omega)
        exact ⟨rest, by rw [hv, List.cons_append, hrest]⟩
      · rw [if_neg hv] at h; omega

theorem matchesCount_self_append : ∀ t e : List Char, matchesCount t (t ++ e) = t.length := by
  intro t e
  induction t with
  | nil => cases e <;> simp [matchesCount]
  | cons a as ih =>
    simp [matchesCount, ih]
    omega

theorem div_hundred_le (c n : Nat) (h : c ≤ n) (hn : 0 < n) : c * 100 / n ≤ 100 := by
  calc c * 100 / n ≤ n * 100 / n := Nat.div_le_div_right (by omega)
    _ = 100 := by rw [Nat.mul_div_cancel_left 100 hn]

theorem div_hundred_eq_imp (c n : Nat) (h : c ≤ n) (hn : 0 < n) (he : c * 100 / n = 100) :
    c = n := by
  have h2 : 100 ≤ c * 100 / n := he.ge
  rw [Nat.le_div_iff_mul_le hn] at h2
  omega

theorem isPrefixOf_exists {t s : List Char} (h : t.isPrefixOf s = true) : ∃ e, s = t ++ e := by
  obtain ⟨e, he⟩ := List.isPrefixOf_iff_prefix.mp h
  exact ⟨e, he.symm⟩

theorem isPrefixOf_self_append (t e : List Char) : t.isPrefixOf (t ++ e) = true :=
  List.isPrefixOf_iff_prefix.mpr ⟨e, rfl⟩

theorem wbReplace_nil (toks : List (List Char)) (repl : List Char) (prevW : Bool) :
    wbReplace toks repl prevW [] = [] := by
  rw [wbReplace]

theorem wbReplace_cons_prevW (toks : List (List Char)) (repl : List Char) (c : Char)
    (cs : List Char) :
    wbReplace toks repl true (c :: cs) = c :: wbReplace toks repl (isWordChar c) cs := by
  rw [wbReplace]
  rw [if_pos rfl]

theorem wbReplace_cons_none (toks : List (List Char)) (repl : List Char) (c : Char)
    (cs : List Char) (h : findTok toks (c :: cs) = none) :
    wbReplace toks repl false (c :: cs) = c :: wbReplace toks repl (isWordChar c) cs := by
  rw [wbReplace]
  simp only [if_neg Bool.false_ne_true]
  split
  · rename_i t heq
    rw [h] at heq; cases heq
  · rfl

theorem wbReplace_cons_some (toks : List (List Char)) (repl : List Char) (c : Char)
    (cs : List Char) (t : List Char) (h : findTok toks (c :: cs) = some t) :
    wbReplace toks repl false (c :: cs) =
      repl ++ wbReplace toks repl true ((c :: cs).drop t.length) := by
  rw [wbReplace]
  simp only [if_neg Bool.false_ne_true]
  split
  · rename_i t2 heq
    rw [h] at heq
    cases heq
    rfl
  · rename_i heq
    rw [h] at heq; cases heq

theorem wholeWord_nil (toks : List (List Char)) (repl : List Char) (afterW : Bool) :
    wholeWordReplace toks repl afterW [] = [] := by
  rw [wholeWordReplace]

theorem wholeWord_cons_not_word (toks : List (List Char)) (repl : List Char) (afterW : Bool)
    {c : Char} (cs : List Char) (hc : isWordChar c = false) :
    wholeWordReplace toks repl afterW (c :: cs) = c :: wholeWordReplace toks repl false cs := by
  rw [wholeWordReplace]
  simp [hc]

theorem wholeWord_cons_word_true (toks : List (List Char)) (repl : List Char)
    {c : Char} (cs : List Char) (hc : isWordChar c = true) :
    wholeWordReplace toks repl true (c :: cs) =
      (c :: cs.takeWhile isWordChar) ++ wholeWordReplace toks repl true (cs.dropWhile isWordChar) := by
  rw [wholeWordReplace]
  simp [hc]

theorem wholeWord_cons_word_repl (toks : List (List Char)) (repl : List Char)
    {c : Char} (cs : List Char) (hc : isWordChar c = true)
    (hmem : toks.contains (c :: cs.takeWhile isWordChar) = true) :
    wholeWordReplace toks repl false (c :: cs) =
      repl ++ wholeWordReplace toks repl true (cs.dropWhile isWordChar) := by
  have hm : (c :: cs.takeWhile isWordChar) ∈ toks := List.mem_of_elem_eq_true hmem
  rw [wholeWordReplace]
  simp [hc, hm]

theorem wholeWord_cons_word_keep (toks : List (List Char)) (repl : List Char)
    {c : Char} (cs : List Char) (hc : isWordChar c = true)
    (hmem : toks.contains (c :: cs.takeWhile isWordChar) = false) :
    wholeWordReplace toks repl false (c :: cs) =
      (c :: cs.takeWhile isWordChar) ++ wholeWordReplace toks repl true (cs.dropWhile isWordChar) := by
  have hm : (c :: cs.takeWhile isWordChar) ∉ toks := fun hmm => by
    simp at hmem
    exact hmem hmm
  rw [wholeWordReplace]
  simp [hc, hm]

theorem wholeWord_word_step (toks : List (List Char)) (repl : List Char)
    {c : Char} (cs : List Char) (hc : isWordChar c = true) :
    wholeWordReplace toks repl true (c :: cs) = c :: wholeWordReplace toks repl true cs := by
  rw [wholeWord_cons_word_true toks repl cs hc]
  rcases cs with _ | ⟨d, ds⟩
  · simp [wholeWord_nil]
  · by_cases hd : isWordChar d
    · rw [wholeWord_cons_word_true toks repl ds hd]
      rw [List.takeWhile_cons, if_pos hd, List.dropWhile_cons, if_pos hd]
      simp
    · have hd2 : isWordChar d = false := by simpa using hd
      rw [List.takeWhile_cons, if_neg (by simp [hd2]), List.dropWhile_cons,
        if_neg (by simp [hd2])]
      rw [wholeWord_cons_not_word toks repl true ds hd2]
      simp

theorem findTok_some_spec {toks : List (List Char)} {s t : List Char}
    (h : findTok toks s = some t) :
    t ∈ toks ∧ t ≠ [] ∧ t.isPrefixOf s = true ∧ boundaryAfter (s.drop t.length) = true := by
  simp only [findTok] at h
  have hmem := List.mem_of_find?_eq_some h
  have hp := List.find?_some h
  simp only [Bool.and_eq_true] at hp
  refine ⟨hmem, ?_, hp.1.2, hp.2⟩
  intro hnil
  subst hnil
  simp at hp

theorem findTok_none_head {toks : List (List Char)} (hg : goodToks toks) {c : Char}
    (cs : List Char) (hc : isWordChar c = false) : findTok toks (c :: cs) = none := by
  simp only [findTok]
  rw [List.find?_eq_none]
  intro t ht hp
  simp only [Bool.and_eq_true] at hp
  obtain ⟨e, he⟩ := isPrefixOf_exists hp.1.2
  obtain ⟨hne, hall⟩ := hg t ht
  rcases t with _ | ⟨d, t2⟩
  · exact hne rfl
  · have hd : d = c := by
      rw [List.cons_append] at he
      exact (List.cons.injEq _ _ _ _ ▸ he).1.symm
    have := hall d (by simp)
    rw [hd, hc] at this
    cases this

theorem takeWhile_all_append {p : Char → Bool} :
    ∀ (t e : List Char), (∀ c ∈ t, p c = true) →
      (t ++ e).takeWhile p = t ++ e.takeWhile p ∧ (t ++ e).dropWhile p = e.dropWhile p := by
  intro t
  induction t with
  | nil => intro e _; simp
  | cons a as ih =>
    intro e hall
    have ha : p a = true := hall a (by simp)
    have := ih e (fun c hc => hall c (by simp [hc]))
    rw [List.cons_append, List.takeWhile_cons, List.dropWhile_cons, if_pos ha, if_pos ha]
    exact ⟨by rw [this.1, List.cons_append], this.2⟩

theorem run_of_tok {t e : List Char} (hall : ∀ c ∈ t, isWordChar c = true)
    (hb : boundaryAfter e = true) :
    (t ++ e).takeWhile isWordChar = t ∧ (t ++ e).dropWhile isWordChar = e := by
  have h := takeWhile_all_append t e hall
  rcases e with _ | ⟨d, ds⟩
  · simpa using h
  · have hd : isWordChar d = false := by
      simp only [boundaryAfter, Bool.not_eq_true'] at hb
      exact hb
    rw [h.1, h.2, List.takeWhile_cons, if_neg (by simp [hd]), List.dropWhile_cons,
      if_neg (by simp [hd])]
    simp

theorem run_pred_true {toks : List (List Char)} {c : Char} (cs : List Char)
    (hc : isWordChar c = true)
    (hmem : (c :: cs.takeWhile isWordChar) ∈ toks) :
    findTok toks (c :: cs) ≠ none := by
  intro hnone
  simp only [findTok] at hnone
  rw [List.find?_eq_none] at hnone
  apply hnone _ hmem
  have hsplit : (c :: cs.takeWhile isWordChar) ++ cs.dropWhile isWordChar = c :: cs := by
    rw [List.cons_append, List.takeWhile_append_dropWhile]
  have hpre : (c :: cs.takeWhile isWordChar).isPrefixOf (c :: cs) = true := by
    rw [← hsplit]
    exact isPrefixOf_self_append _ _
  have hdrop : (c :: cs).drop (c :: cs.takeWhile isWordChar).length = cs.dropWhile isWordChar := by
    rw [← hsplit]
    exact List.drop_left _ _
  have hbnd : boundaryAfter ((c :: cs).drop (c :: cs.takeWhile isWordChar).length) = true := by
    rw [hdrop]
    rcases hdw : cs.dropWhile isWordChar with _ | ⟨d, ds⟩
    · simp [boundaryAfter]
    · have := dropWhile_head_false cs d ds hdw
      simp [boundaryAfter, this]
  simp only [Bool.and_eq_true]
  refine ⟨⟨?_, hpre⟩, hbnd⟩
  simp

theorem wbReplace_eq_wholeWord_aux {toks : List (List Char)} (repl : List Char)
    (hg : goodToks toks) :
    ∀ n (s : List Char), s.length ≤ n → ∀ prevW,
      wbReplace toks repl prevW s = wholeWordReplace toks repl prevW s := by
  intro n
  induction n with
  | zero =>
    intro s hs prevW
    have : s = [] := List.length_eq_zero.mp (Nat.le_zero.mp hs)
    subst this
    rw [wbReplace_nil, wholeWord_nil]
  | succ n ih =>
    intro s hs prevW
    rcases s with _ | ⟨c, cs⟩
    · rw [wbReplace_nil, wholeWord_nil]
    · have hcs : cs.length ≤ n := by
        simp only [List.length_cons] at hs
        omega
      by_cases hc : isWordChar c
      · -- word character at the scan position
        cases prevW with
        | true =>
          rw [wbReplace_cons_prevW, hc, ih cs hcs true,
            wholeWord_word_step toks repl cs hc]
        | false =>
          rcases hft : findTok toks (c :: cs) with _ | ⟨t⟩
          · -- no token matches here: the run is not a token
            have hrun : toks.contains (c :: cs.takeWhile isWordChar) = false := by
              by_contra hcon
              have hmem : (c :: cs.takeWhile isWordChar) ∈ toks := by
                rcases hvb : toks.contains (c :: cs.takeWhile isWordChar) with _ | _
                · exact absurd hvb hcon
                · exact List.mem_of_elem_eq_true hvb
              exact run_pred_true cs hc hmem hft
            rw [wbReplace_cons_none toks repl c cs hft, hc, ih cs hcs true,
              ← wholeWord_word_step toks repl cs hc,
              wholeWord_cons_word_keep toks repl cs hc hrun,
              wholeWord_cons_word_true toks repl cs hc]
          · -- a token matches: it is exactly the maximal run
            obtain ⟨hmem, hne, hpre, hbnd⟩ := findTok_some_spec hft
            obtain ⟨e, he⟩ := isPrefixOf_exists hpre
            have hall := (hg t hmem).2
            have hdrop : (c :: cs).drop t.length = e := by
              rw [he]
              exact List.drop_left _ _
            rw [hdrop] at hbnd
            have hrun := run_of_tok hall hbnd
            rw [← he] at hrun
            have htake : c :: cs.takeWhile isWordChar = t := by
              have : (c :: cs).takeWhile isWordChar = c :: cs.takeWhile isWordChar := by
                rw [List.takeWhile_cons, if_pos hc]
              rw [← this, hrun.1]
            have hdw : cs.dropWhile isWordChar = e := by
              have : (c :: cs).dropWhile isWordChar = cs.dropWhile isWordChar := by
                rw [List.dropWhile_cons, if_pos hc]
              rw [← this, hrun.2]
            have hcont : toks.contains (c :: cs.takeWhile isWordChar) = true := by
              rw [htake]
              exact List.elem_eq_true_of_mem hmem
            rw [wbReplace_cons_some toks repl c cs t hft, hdrop,
              wholeWord_cons_word_repl toks repl cs hc hcont, hdw]
            have helen : e.length ≤ n := by
              have : (c :: cs).length = t.length + e.length := by
                rw [he, List.length_append]
              simp only [List.length_cons] at this hs
              have htlen : 0 < t.length := List.length_pos.mpr hne
              omega
            rw [ih e helen true]
      · -- non-word character: always copied
        have hc2 : isWordChar c = false := by simpa using hc
        cases prevW with
        | true =>
          rw [wbReplace_cons_prevW, hc2, ih cs hcs false,
            wholeWord_cons_not_word toks repl true cs hc2]
        | false =>
          rw [wbReplace_cons_none toks repl c cs (findTok_none_head hg cs hc2), hc2,
            ih cs hcs false, wholeWord_cons_not_word toks repl false cs hc2]

theorem wbReplace_eq_wholeWord {toks : List (List Char)} (repl : List Char)
    (hg : goodToks toks) (s : List Char) (prevW : Bool) :
    wbReplace toks repl prevW s = wholeWordReplace toks repl prevW s :=
  wbReplace_eq_wholeWord_aux repl hg s.length s le_rfl prevW

theorem awardStep_append (pts : Nat) (acc : List String) (a : Achievement) :
    ∃ v, awardStep pts acc a = acc ++ v := by
  unfold awardStep
  split
  · exact ⟨[a.title], rfl⟩
  · exact ⟨[], by simp⟩

theorem mem_awardStep (pts : Nat) (acc : List String) (a : Achievement) {x : String}
    (h : x ∈ acc) : x ∈ awardStep pts acc a := by
  obtain ⟨v, hv⟩ := awardStep_append pts acc a
  rw [hv]
  exact List.mem_append_left v h

theorem title_mem_awardStep (pts : Nat) (acc : List String) (a : Achievement)
    (h : pts ≥ a.points) : a.title ∈ awardStep pts acc a := by
  unfold awardStep
  split
  · simp
  · rename_i hcond
    push_neg at hcond
    simpa using hcond h

theorem mem_foldl_award (pts : Nat) :
    ∀ (as : List Achievement) (acc : List String) (x : String), x ∈ acc →
      x ∈ as.foldl (awardStep pts) acc := by
  intro as
  induction as with
  | nil => intro acc x h; simpa using h
  | cons a as ih =>
    intro acc x h
    rw [List.foldl_cons]
    exact ih _ x (mem_awardStep pts acc a h)

theorem qualifying_mem_foldl_award (pts : Nat) :
    ∀ (as : List Achievement) (acc : List String) (a : Achievement), a ∈ as →
      pts ≥ a.points → a.title ∈ as.foldl (awardStep pts) acc := by
  intro as
  induction as with
  | nil => intro acc a h; simp at h
  | cons b as ih =>
    intro acc a hmem hpts
    rw [List.foldl_cons]
    rcases List.mem_cons.mp hmem with heq | htail
    · subst heq
      exact mem_foldl_award pts as _ _ (title_mem_awardStep pts acc a hpts)
    · exact ih _ a htail hpts

theorem foldl_award_id (pts : Nat) :
    ∀ (as : List Achievement) (acc : List String),
      (∀ a ∈ as, pts ≥ a.points → a.title ∈ acc) → as.foldl (awardStep pts) acc = acc := by
  intro as
  induction as with
  | nil => intro acc _; rfl
  | cons a as ih =>
    intro acc h
    rw [List.foldl_cons]
    have hstep : awardStep pts acc a = acc := by
      unfold awardStep
      rw [if_neg]
      intro ⟨h1, h2⟩
      exact h2 (h a (by simp) h1)
    rw [hstep]
    exact ih acc (fun b hb => h b (by simp [hb]))

theorem exists_append_foldl_award (pts : Nat) :
    ∀ (as : List Achievement) (acc : List String),
      ∃ u, as.foldl (awardStep pts) acc = acc ++ u := by
  intro as
  induction as with
  | nil => intro acc; exact ⟨[], by simp⟩
  | cons a as ih =>
    intro acc
    rw [List.foldl_cons]
    obtain ⟨v, hv⟩ := awardStep_append pts acc a
    obtain ⟨u, hu⟩ := ih (awardStep pts acc a)
    exact ⟨v ++ u, by rw [hu, hv, List.append_assoc]⟩

theorem nodup_foldl_award (pts : Nat) :
    ∀ (as : List Achievement) (acc : List String), acc.Nodup →
      (as.foldl (awardStep pts) acc).Nodup := by
  intro as
  induction as with
  | nil => intro acc h; simpa using h
  | cons a as ih =>
    intro acc h
    rw [List.foldl_cons]
    apply ih
    unfold awardStep
    split
    · rename_i hcond
      rw [List.nodup_append]
      refine ⟨h, List.nodup_singleton _, ?_⟩
      intro x hx hx2
      rw [List.mem_singleton] at hx2
      subst hx2
      exact hcond.2 hx
    · exact h

theorem mem_foldl_award_src (pts : Nat) :
    ∀ (as : List Achievement) (acc : List String) (x : String),
      x ∈ as.foldl (awardStep pts) acc →
      x ∈ acc ∨ ∃ a, a ∈ as ∧ x = a.title ∧ pts ≥ a.points := by
  intro as
  induction as with
  | nil => intro acc x h; exact Or.inl (by simpa using h)
  | cons a as ih =>
    intro acc x h
    rw [List.foldl_cons] at h
    rcases ih _ x h with hin | ⟨b, hb, hx, hp⟩
    · unfold awardStep at hin
      split at hin
      · rename_i hcond
        rcases List.mem_append.mp hin with h1 | h2
        · exact Or.inl h1
        · rw [List.mem_singleton] at h2
          exact Or.inr ⟨a, by simp, h2, hcond.1⟩
      · exact Or.inl hin
    · exact Or.inr ⟨b, by simp [hb], hx, hp⟩

theorem fallback_eq_100_gives_tolerant {iN tN : List Char}
    (h : countAligned (splitOnSpace tN) (splitOnSpace iN) * 100 / (splitOnSpace tN).length = 100) :
    (removeWs iN).length * 5 ≥ (removeWs tN).length * 4 ∧
      matchesCount (removeWs tN) (removeWs iN) * 100 ≥ 85 * (removeWs tN).length := by
  have hc_le := countAligned_le (splitOnSpace tN) (splitOnSpace iN)
  have hn : 0 < (splitOnSpace tN).length := length_splitOnSpace_pos tN
  have hceq := div_hundred_eq_imp _ _ hc_le hn h
  obtain ⟨rest, hrest⟩ := countAligned_full _ _ hceq
  have h3 : removeWs iN = removeWs tN ++ List.flatten (rest.map removeWs) := by
    rw [← join_map_removeWs iN, hrest, List.map_append, List.flatten_append,
      join_map_removeWs tN]
  constructor
  · rw [h3, List.length_append]
    omega
  · rw [h3, matchesCount_self_append]
    omega

theorem checkAccuracy_eq_100_iff (input target : List Char) (language : Lang)
    (hpos : 0 < (removeWs (normalizeStr target)).length) :
    checkAccuracy input target language = 100 ↔
      normalizeStr (autoCorrect input target language) = normalizeStr target ∨
        tolerantMatch input target language := by
  simp only [checkAccuracy]
  split_ifs with h1 h2
  · exact iff_of_true rfl (Or.inl h1)
  · exact iff_of_true rfl (Or.inr ⟨h2.1, h2.2.2⟩)
  · apply iff_of_false
    · intro h100
      have := fallback_eq_100_gives_tolerant h100
      exact h2 ⟨this.1, hpos, this.2⟩
    · rintro (he | ht)
      · exact h1 he
      · exact h2 ⟨ht.1, hpos, ht.2⟩

theorem countAligned_nil_right : ∀ ws : List (List Char), countAligned ws [] = 0 := by
  intro ws
  cases ws <;> rfl

theorem goodToks_hindi : goodToks hindiToks := by
  intro t ht
  simp only [hindiToks, List.mem_cons, List.not_mem_nil, or_false] at ht
  rcases ht with rfl | rfl | rfl | rfl <;> exact ⟨by decide, by decide⟩

theorem goodToks_hinglish : goodToks hinglishToks := by
  intro t ht
  simp only [hinglishToks, List.mem_cons, List.not_mem_nil, or_false] at ht
  rcases ht with rfl | rfl <;> exact ⟨by decide, by decide⟩

theorem autoCorrect_nil (t : List Char) (language : Lang) :
    autoCorrect [] t language = [] := by
  cases language <;> simp [autoCorrect, wbReplace_nil]

theorem autoCorrect_om_word_hinglish (t : List Char) :
    autoCorrect (("Om").data) t Lang.hinglish = ("Om").data := by
  simp only [autoCorrect]
  rw [wbReplace_cons_none _ _ _ _ (by decide)]
  have hO : isWordChar 'O' = true := by decide
  rw [hO, wbReplace_cons_prevW, wbReplace_nil]

theorem autoCorrect_om_word_hindi (t : List Char) :
    autoCorrect (("Om").data) t Lang.hindi = ("Om").data := by
  simp only [autoCorrect]
  rw [wbReplace_cons_none _ _ _ _ (by decide)]
  have hO : isWordChar 'O' = true := by decide
  rw [hO, wbReplace_cons_prevW, wbReplace_nil]

theorem checkAccuracy_le_100 (input target : List Char) (language : Lang) :
    checkAccuracy input target language ≤ 100 := by
  simp only [checkAccuracy]
  split_ifs with h1 h2
  · exact le_rfl
  · exact le_rfl
  · exact div_hundred_le _ _ (countAligned_le _ _) (length_splitOnSpace_pos _)

/-- C7 (amended): scoring the empty input returns 0 for every target whose
normalized (danda-stripped, lowercased, trimmed) form is non-empty — in
particular for both fixed mantras.  (A non-empty target that normalizes to
the empty string instead scores 100 by the exact-match rule, see the
counterexample.) -/
theorem checkAccuracy_empty_input_zero (target : List Char) (language : Lang)
    (h : normalizeStr target ≠ []) : checkAccuracy [] target language = 0 := by
  have hac : autoCorrect [] target language = [] := autoCorrect_nil target language
  have hpos : 0 < (removeWs (normalizeStr target)).length :=
    List.length_pos.mpr (removeWs_trim_ne_nil (lowerStr (stripDanda target)) h)
  obtain ⟨c, t, htn, hcws⟩ := trim_head_not_ws (lowerStr (stripDanda target)) h
  have hnt : normalizeStr target = c :: t := htn
  have hcsp : c ≠ ' ' := by
    intro he
    subst he
    simp [isWs] at hcws
  obtain ⟨w, ws, hsp, _⟩ := splitOnSpace_cons_of_ne t hcsp
  have hni : normalizeStr ([] : List Char) = [] := rfl
  rw [hnt] at hpos
  simp only [checkAccuracy, hac, hni, hnt]
  rw [if_neg (by simp), if_neg]
  · have hsp0 : splitOnSpace ([] : List Char) = [[]] := rfl
    rw [hsp, hsp0]
    have hzero : countAligned ((c :: w) :: ws) [[]] = 0 := by
      simp only [countAligned]
      rw [if_neg (by simp)]
    rw [hzero]
    simp
  · rintro ⟨hlen, hp, _⟩
    have h0 : (removeWs ([] : List Char)).length = 0 := rfl
    rw [h0] at hlen
    omega

/-- C7 counterexample: the single-space target is a non-empty string, yet
the empty input scores 100 against it (both sides normalize to the empty
string, so the exact-match rule fires), not 0 as the claim demands for every
non-empty target. -/
theorem checkAccuracy_blank_target_counterexample :
    ((" ").data ≠ ([] : List Char)) ∧ checkAccuracy [] ((" ").data) Lang.hinglish = 100 := by
  constructor
  · decide
  · have hac : autoCorrect [] ((" ").data) Lang.hinglish = [] :=
      autoCorrect_nil ((" ").data) Lang.hinglish
    simp only [checkAccuracy, hac]
    decide

/-- C7 witness: the amended statement applied to the transliterated mantra
target, whose normalized form is non-empty. -/
theorem checkAccuracy_empty_input_zero_witness :
    checkAccuracy [] (MANTRAS .hinglish) Lang.hinglish = 0 :=
  checkAccuracy_empty_input_zero (MANTRAS .hinglish) Lang.hinglish (by decide)

/-- C1: for every input string and each of the two fixed mantra targets,
`checkAccuracy` returns 100 exactly when the auto-corrected, normalized
input equals the normalized target, or the tolerant-match condition (80%
length, 85% positional character agreement over the target length) holds. -/
theorem checkAccuracy_100_iff_exact_or_tolerant (s : List Char) (language : Lang) :
    checkAccuracy s (MANTRAS language) language = 100 ↔
      normalizeStr (autoCorrect s (MANTRAS language) language) =
          normalizeStr (MANTRAS language) ∨
        tolerantMatch s (MANTRAS language) language := by
  apply checkAccuracy_eq_100_iff
  cases language <;> decide

/-- C8: `checkAccuracy` is total by construction and returns a natural
number, and against each fixed mantra target the result never exceeds 100
(so it lies in the integer range 0..100); `getTypingSuggestion` is likewise
total by construction. -/
theorem checkAccuracy_range (s : List Char) (language : Lang) :
    checkAccuracy s (MANTRAS language) language ≤ 100 :=
  checkAccuracy_le_100 s (MANTRAS language) language

/-- C4: scoring 100 advances the repetition counter by one; exactly when it
reaches 3 the session count rises by one, the points by ten and the counter
resets to 0; an accepted repetition below 3 leaves the whole progress record
(points, sessions, achievements) unchanged. -/
theorem applyScore_session_arithmetic (st : SessionState) :
    (st.repetitionCount + 1 = 3 →
        (applyScore st 100).repetitionCount = 0 ∧
          (applyScore st 100).progress.totalPoints = st.progress.totalPoints + 10 ∧
          (applyScore st 100).progress.completedSessions = st.progress.completedSessions + 1) ∧
      (st.repetitionCount + 1 ≠ 3 →
        (applyScore st 100).repetitionCount = st.repetitionCount + 1 ∧
          (applyScore st 100).progress = st.progress) := by
  constructor
  · intro h3
    simp [applyScore, h3]
  · intro h3
    simp [applyScore, h3]

/-- C4 witness: the session arithmetic evaluated at a counter of 2 (third
repetition: award fires) and at a counter of 0 (no award). -/
theorem applyScore_session_arithmetic_witness :
    ((applyScore ⟨2, ⟨90, [], 5⟩⟩ 100).repetitionCount = 0 ∧
        (applyScore ⟨2, ⟨90, [], 5⟩⟩ 100).progress.totalPoints = 100 ∧
        (applyScore ⟨2, ⟨90, [], 5⟩⟩ 100).progress.completedSessions = 6) ∧
      ((applyScore ⟨0, ⟨90, [], 5⟩⟩ 100).repetitionCount = 1 ∧
        (applyScore ⟨0, ⟨90, [], 5⟩⟩ 100).progress = ⟨90, [], 5⟩) := by
  constructor
  · have h := (applyScore_session_arithmetic ⟨2, ⟨90, [], 5⟩⟩).1 (by decide)
    exact ⟨h.1, h.2.1, h.2.2⟩
  · exact (applyScore_session_arithmetic ⟨0, ⟨90, [], 5⟩⟩).2 (by decide)

/-- C5: the achievement award pass is idempotent on the achievements list,
only appends (never removes), preserves freedom from duplicates, and only
adds titles whose point threshold is reached and that were not already
present. -/
theorem checkAwards_idempotent (pts : Nat) (l : List String) :
    checkAwards pts (checkAwards pts l) = checkAwards pts l ∧
      (∃ u, checkAwards pts l = l ++ u) ∧
      (l.Nodup → (checkAwards pts l).Nodup) ∧
      (∀ x, x ∈ checkAwards pts l → x ∉ l →
        ∃ a, a ∈ ACHIEVEMENTS ∧ x = a.title ∧ pts ≥ a.points) := by
  refine ⟨?_, exists_append_foldl_award pts ACHIEVEMENTS l,
    nodup_foldl_award pts ACHIEVEMENTS l, ?_⟩
  · apply foldl_award_id
    intro a ha hp
    exact qualifying_mem_foldl_award pts ACHIEVEMENTS l a ha hp
  · intro x hx hnx
    rcases mem_foldl_award_src pts ACHIEVEMENTS l x hx with h | h
    · exact absurd h hnx
    · exact h

/-- C5 witness: the award pass at 600 points over a record already holding
the first title: idempotence, duplicate freedom, and the characterization of
the newly added bronze title. -/
theorem checkAwards_idempotent_witness :
    (checkAwards 600 (checkAwards 600 ["Sanskrit Learner"]) =
        checkAwards 600 ["Sanskrit Learner"]) ∧
      (checkAwards 600 ["Sanskrit Learner"]).Nodup ∧
      (∃ a, a ∈ ACHIEVEMENTS ∧ ("Bronze Mantra Medal" : String) = a.title ∧ 600 ≥ a.points) :=
  ⟨(checkAwards_idempotent 600 ["Sanskrit Learner"]).1,
    (checkAwards_idempotent 600 ["Sanskrit Learner"]).2.2.1 (by decide),
    (checkAwards_idempotent 600 ["Sanskrit Learner"]).2.2.2 "Bronze Mantra Medal"
      (by decide) (by decide)⟩

/-- C9: the leaderboard presents the records as a permutation of the input
sorted so that every earlier record has strictly more points, or equally
many points and at least as many completed sessions, as every later one. -/
theorem sortLeaderboard_sorted_perm (l : List LBEntry) :
    List.Pairwise
        (fun a b => b.points < a.points ∨ (a.points = b.points ∧ b.sessions ≤ a.sessions))
        (sortLeaderboard l) ∧
      (sortLeaderboard l).Perm l :=
  ⟨List.sorted_insertionSort lbLe l, List.perm_insertionSort lbLe l⟩

/-- C10: when the input consists of exactly the first `k` words of the
target joined by single spaces and followed by a trailing space, the
suggestion is the `k`-th target word itself (the word just typed), not the
next word and not empty — for every `k` from 1 to the word count, on both
fixed targets. -/
theorem getTypingSuggestion_completed_word :
    (∀ k : Nat, k < 11 →
        getTypingSuggestion
            (List.intercalate [' '] ((splitOnSpace (MANTRAS .hindi)).take (k + 1)) ++ [' '])
            (MANTRAS .hindi) =
          (splitOnSpace (MANTRAS .hindi)).getD k []) ∧
      (∀ k : Nat, k < 14 →
        getTypingSuggestion
            (List.intercalate [' '] ((splitOnSpace (MANTRAS .hinglish)).take (k + 1)) ++ [' '])
            (MANTRAS .hinglish) =
          (splitOnSpace (MANTRAS .hinglish)).getD k []) := by
  constructor <;> decide

/-- C10 witness: the first word of the transliterated mantra followed by a
trailing space makes the suggestion that same first word. -/
theorem getTypingSuggestion_completed_word_witness :
    getTypingSuggestion
        (List.intercalate [' '] ((splitOnSpace (MANTRAS .hinglish)).take 1) ++ [' '])
        (MANTRAS .hinglish) = (splitOnSpace (MANTRAS .hinglish)).getD 0 [] :=
  getTypingSuggestion_completed_word.2 0 (by decide)

/-- C2 (code bug): starting from empty input on the transliterated mantra,
accepting the suggestion once yields input "Om " with the suggestion
recomputed as "Om" again (the trailing space is trimmed away and a fully
typed word is a prefix of itself); that state is a fixed point of the
acceptance step, so repeated acceptance never advances past the first word
and never reconstructs the target, contrary to the claimed word-by-word
chaining. -/
theorem suggestion_chain_stalls :
    acceptSuggestion (MANTRAS .hinglish) (initialState (MANTRAS .hinglish)) =
        ⟨("Om ").data, ("Om").data⟩ ∧
      acceptSuggestion (MANTRAS .hinglish) ⟨("Om ").data, ("Om").data⟩ =
        ⟨("Om ").data, ("Om").data⟩ ∧
      ∀ n : Nat,
        trim ((Nat.iterate (acceptSuggestion (MANTRAS .hinglish)) n
            (initialState (MANTRAS .hinglish))).currentInput) ≠ MANTRAS .hinglish := by
  have h1 : acceptSuggestion (MANTRAS .hinglish) (initialState (MANTRAS .hinglish)) =
      ⟨("Om ").data, ("Om").data⟩ := by decide
  have h2 : acceptSuggestion (MANTRAS .hinglish) ⟨("Om ").data, ("Om").data⟩ =
      ⟨("Om ").data, ("Om").data⟩ := by decide
  refine ⟨h1, h2, ?_⟩
  have hiter : ∀ n : Nat,
      Nat.iterate (acceptSuggestion (MANTRAS .hinglish)) (n + 1)
          (initialState (MANTRAS .hinglish)) = ⟨("Om ").data, ("Om").data⟩ := by
    intro n
    induction n with
    | zero => simpa using h1
    | succ n ih =>
      rw [Function.iterate_succ_apply', ih, h2]
  intro n
  cases n with
  | zero => decide
  | succ n =>
    rw [hiter n]
    decide

/-- C3 counterexample: "Om" is a whole-word, mixed-case occurrence of the
token "om", but the hindi-variant auto-correction leaves it unchanged
instead of rewriting it to the native glyph — the substitution is not
case-insensitive. -/
theorem autoCorrect_mixed_case_not_replaced :
    autoCorrect (("Om").data) (MANTRAS .hindi) Lang.hindi = ("Om").data ∧
      ("Om").data ≠ ("ॐ").data :=
  ⟨autoCorrect_om_word_hindi (MANTRAS .hindi), by decide⟩

/-- C3 (amended): the auto-correction pass rewrites exactly the maximal
word-character runs equal to one of the literal tokens "om", "aum", "OM",
"AUM" (hindi variant, to the native glyph) respectively "aum", "AUM"
(transliterated variant, to "Om") — whole words only, never inside a longer
token — and leaves every other character unchanged; mixed-case forms such as
"Om" or "Aum" are not rewritten. -/
theorem autoCorrect_whole_word_characterization (s t : List Char) :
    autoCorrect s t Lang.hindi = wholeWordReplace hindiToks (("ॐ").data) false s ∧
      autoCorrect s t Lang.hinglish = wholeWordReplace hinglishToks (("Om").data) false s := by
  constructor
  · simp only [autoCorrect]
    exact wbReplace_eq_wholeWord _ goodToks_hindi s false
  · simp only [autoCorrect]
    exact wbReplace_eq_wholeWord _ goodToks_hinglish s false

/-- C6: whenever neither the exact-match rule nor the tolerant branch of
`checkAccuracy` applies, the result is the floored percentage of
index-aligned word matches over the target word count; in particular the
input "Om" against the target "Om bhur bhuvah" scores 33. -/
theorem checkAccuracy_fallback_formula :
    (∀ (input target : List Char) (language : Lang),
        normalizeStr (autoCorrect input target language) ≠ normalizeStr target →
        ¬tolerantBranch input target language →
        checkAccuracy input target language =
          countAligned (splitOnSpace (normalizeStr target))
              (splitOnSpace (normalizeStr (autoCorrect input target language))) * 100 /
            (splitOnSpace (normalizeStr target)).length) ∧
      checkAccuracy (("Om").data) (("Om bhur bhuvah").data) Lang.hinglish = 33 := by
  constructor
  · intro input target language h1 h2
    simp only [checkAccuracy]
    rw [if_neg h1, if_neg]
    rintro ⟨hlen, hp, hsim⟩
    exact h2 ⟨⟨hlen, hsim⟩, hp⟩
  · have hac := autoCorrect_om_word_hinglish (("Om bhur bhuvah").data)
    simp only [checkAccuracy, hac]
    decide

/-- C6 witness: the fallback formula applied at input "Om" against target
"Om bhur bhuvah", where neither the exact-match nor the tolerant branch
applies. -/
theorem checkAccuracy_fallback_formula_witness :
    checkAccuracy (("Om").data) (("Om bhur bhuvah").data) Lang.hinglish =
      countAligned (splitOnSpace (normalizeStr (("Om bhur bhuvah").data)))
          (splitOnSpace (normalizeStr
            (autoCorrect (("Om").data) (("Om bhur bhuvah").data) Lang.hinglish))) * 100 /
        (splitOnSpace (normalizeStr (("Om bhur bhuvah").data))).length :=
  checkAccuracy_fallback_formula.1 (("Om").data) (("Om bhur bhuvah").data) Lang.hinglish
    (by rw [autoCorrect_om_word_hinglish]; decide)
    (by unfold tolerantBranch tolerantMatch; rw [autoCorrect_om_word_hinglish]; decide)
